import Mathlib

/-!
Verification of the INA229 worker (INA229_worker.js): line framing,
ack-gated command queue, and binary telemetry decoding.

The JavaScript source is shallowly embedded:
strings are lists of characters, byte buffers are lists of naturals,
the event loop is a fold over an explicit event list, and the two
scanning loops (the serial line reader and the USB frame scanner)
become structurally recursive functions (the USB scanner takes an
explicit fuel argument; a fuel-sufficiency theorem shows the loop
terminates within one iteration per buffer byte).
-/

namespace INA229

/-! ## Line Framer (createLineReader, worker lines 12-58)

The reader keeps a buffer of not-yet-terminated input.  Each readLine
call first extracts a complete line (text before the first "\r\n",
which is removed together with the delimiter); when no delimiter is
present it appends the next chunk, and at end of stream it returns the
nonempty remainder once, then nothing. -/

/-- Whether a character list contains the two-character delimiter
carriage-return line-feed as a contiguous substring. -/
def hasCRLF : List Char → Bool
  | [] => false
  | [_] => false
  | c1 :: c2 :: rest => (c1 = '\r' && c2 = '\n') || hasCRLF (c2 :: rest)

/-- Split a buffer into the list of complete lines (delimiter-stripped
text before each "\r\n", scanning left to right exactly as repeated
indexOf/slice on the buffer does) and the trailing partial line. -/
def splitCRLF : List Char → List (List Char) × List Char
  | [] => ([], [])
  | '\r' :: '\n' :: rest =>
      let (ls, b) := splitCRLF rest
      ([] :: ls, b)
  | c :: rest =>
      match splitCRLF rest with
      | ([], b) => ([], c :: b)
      | (l :: ls, b) => ((c :: l) :: ls, b)

/-- Drive the reader over a whole chunk sequence: emit every complete
line buffered so far, then append the next chunk; at end of stream
(worker lines 41-51) emit the nonempty remainder once as a final line. -/
def runReader : List (List Char) → List Char → List (List Char)
  | [], buffer =>
      let (ls, b) := splitCRLF buffer
      ls ++ (if b = [] then [] else [b])
  | c :: cs, buffer =>
      let (ls, b) := splitCRLF buffer
      ls ++ runReader cs (b ++ c)

/-- Lines obtained when the entire stream content arrives at once. -/
def linesOf (s : List Char) : List (List Char) :=
  let (ls, b) := splitCRLF s
  ls ++ (if b = [] then [] else [b])

/-- Encoding of a line sequence in which every line is terminated by
the "\r\n" delimiter. -/
def encodeLines (ls : List (List Char)) : List Char :=
  (ls.map (fun l => l ++ ['\r', '\n'])).flatten

/-! ## Telemetry Decoder (readUsbLoop, worker lines 169-213)

One bulk transfer delivers a byte buffer that is scanned left to
right: a zero sentinel byte starts a record (byte 1 reserved, byte 2
address, byte 3 value width N, then N big-endian value bytes); a
nonzero byte advances the scan by one (resynchronization); a record
that would run past the end of the buffer stops the scan.  JavaScript
numeric quirks are embedded exactly: for widths of at most 4 bytes the
value is accumulated with the 32-bit signed shift-or of the source
(rawValue << 8 | b), and for larger widths with exact BigInt
arithmetic followed by conversion to a double-precision float. -/

/-- Reinterpret a natural as a JavaScript 32-bit signed integer
(two's complement), the ToInt32 conversion applied by the << and |
operators. -/
def toInt32 (n : Nat) : Int :=
  if n % 4294967296 < 2147483648 then ((n % 4294967296 : Nat) : Int)
  else ((n % 4294967296 : Nat) : Int) - 4294967296

/-- The low 32 bits of an integer, as a natural (ToUint32). -/
def toUInt32n (x : Int) : Nat := (x % 4294967296).toNat

/-- One step of the width-at-most-4 accumulation:
the JavaScript expression (rawValue << 8) | b on 32-bit integers.
The shifted value has zero low byte, so for a byte b the bitwise or
coincides with addition. -/
def jsShlOr (rv : Int) (b : Nat) : Int :=
  toInt32 ((toUInt32n rv * 256) % 4294967296 + b)

/-- Big-endian accumulation of bytes into an exact natural:
the BigInt expression (rawValue << 8n) | BigInt(b), which for a byte
b equals rawValue * 256 + b with no precision limit. -/
def beValFrom (a : Nat) (bs : List Nat) : Nat :=
  bs.foldl (fun x b => x * 256 + b) a

/-- Big-endian value of a byte list. -/
def beVal (bs : List Nat) : Nat := beValFrom 0 bs

/-- Round a natural to the nearest double-precision float
(round to nearest, ties to even, 53-bit significand): the value of
the JavaScript conversion Number(bigint) for a nonnegative bigint.
Naturals below 2 ^ 53 are exact. -/
def roundFloat64 (v : Nat) : Nat :=
  if v < 2 ^ 53 then v
  else
    let e := Nat.log2 v - 52
    let q := v / 2 ^ e
    let r := v % 2 ^ e
    let half := 2 ^ (e - 1)
    if half < r ∨ (r = half ∧ q % 2 = 1) then (q + 1) * 2 ^ e else q * 2 ^ e

/-- Read byte i of the transfer buffer (dataView.getUint8).  All reads
performed by the scanner are bounds-checked by the source before the
access, so the default never surfaces. -/
def readByte (buf : List Nat) (i : Nat) : Nat := buf.getD i 0

/-- The body of the scan loop at a given offset; recur continues the
loop at the next offset.  Mirrors worker lines 178-201. -/
def decodeStep (buf : List Nat) (offset : Nat) (recur : Nat → List (Nat × Int)) :
    List (Nat × Int) :=
  if offset < buf.length then
    let frameID := readByte buf offset
    if frameID ≠ 0 then recur (offset + 1)
    else if offset + 4 > buf.length then []
    else
      let address := readByte buf (offset + 2)
      let registerSize := readByte buf (offset + 3)
      if offset + 4 + registerSize > buf.length then []
      else
        let vbytes := (List.range registerSize).map (fun i => readByte buf (offset + 4 + i))
        let rawValue : Int :=
          if registerSize > 4 then Int.ofNat (roundFloat64 (beVal vbytes))
          else vbytes.foldl jsShlOr 0
        (address, rawValue) :: recur (offset + 4 + registerSize)
  else []

/-- The scan loop with fuel: each loop iteration consumes one unit.
The loop strictly increases the offset each iteration, so buffer
length many units always suffice (proved below). -/
def decodeLoop (buf : List Nat) : Nat → Nat → List (Nat × Int)
  | 0, _ => []
  | fuel + 1, offset => decodeStep buf offset (decodeLoop buf fuel)

/-- All register updates decoded from one bulk transfer buffer. -/
def decodeFrames (buf : List Nat) : List (Nat × Int) :=
  decodeLoop buf buf.length 0

/-- The N big-endian bytes of a value (most significant first):
the layout of a well-formed record body. -/
def encBE : Nat → Nat → List Nat
  | 0, _ => []
  | n + 1, v => encBE n (v / 256) ++ [v % 256]

/-! ## Session Controller and Flow-Controlled Command Queue
(worker lines 3-10, 84-135, 137-167)

The mutable worker globals relevant to command flow are queue, state,
ackd (lines 8-10) and the availability of serialWriter.  All mutations
happen in synchronous runs between await points of the single worker
thread, so the session evolves by atomic steps and is modeled as a
fold of a step function over an event list. -/

/-- The session variables of the worker. -/
structure Sess where
  queue : List String
  state : String
  ackd : Bool
  writer : Bool
  deriving DecidableEq, Repr

/-- Worker-start values of the globals (lines 3-10): empty queue,
state idle, ackd true, serialWriter not yet assigned. -/
def sess0 : Sess := { queue := [], state := "idle", ackd := true, writer := false }

/-- handleQueue (lines 122-135): when a writer is attached, the device
state is idle or collecting, the previous command was acknowledged and
the queue is nonempty, pop the head, clear ackd and send it; otherwise
do nothing.  The returned option is the command handed to the
transport, if any. -/
def handleQueue (s : Sess) : Sess × Option String :=
  if !s.writer then (s, none)
  else if (s.state = "idle" || s.state = "collecting") && s.ackd then
    match s.queue with
    | [] => (s, none)
    | c :: rest => ({ s with queue := rest, ackd := false }, some c)
  else (s, none)

/-- The outcome of JSON.parse on one serial line, as consumed by lines
151-158: whether the acknowledge field is present and truthy, the
evm_state field when present and truthy, and the register field's
address and value when present. -/
structure LineRecord where
  acknowledge : Bool
  evm_state : Option String
  register : Option (Int × Int)
  deriving DecidableEq, Repr

/-- Observable items produced while processing events: a command
handed to the transport (tagged with the value of ackd immediately
before the send), an acknowledgment, a device state change, and a
register update forwarded to the host. -/
inductive Item where
  | sent (ackdBefore : Bool) (c : String)
  | acked
  | stateChanged (st : String)
  | registerData (a : Int) (v : Int)
  deriving DecidableEq, Repr

/-- Effect of one parsed line on the session (lines 151-158): a truthy
acknowledge field sets ackd, a truthy evm_state field overwrites the
device state, a register field emits one register update. -/
def interpretLine (d : LineRecord) (s : Sess) : Sess × List Item :=
  let p1 := if d.acknowledge then ({ s with ackd := true }, [Item.acked])
            else (s, ([] : List Item))
  let p2 := match d.evm_state with
    | some st => ({ p1.1 with state := st }, p1.2 ++ [Item.stateChanged st])
    | none => p1
  match d.register with
  | some (a, v) => (p2.1, p2.2 ++ [Item.registerData a v])
  | none => p2

/-- The Command Line Decoder applied to one line (lines 149-160):
JSON.parse is the host collaborator, passed in as a function; a line
it rejects is swallowed with no state change and no output. -/
def decodeLine (parse : String → Option LineRecord) (s : Sess) (line : String) :
    Sess × List Item :=
  match parse line with
  | none => (s, [])
  | some d => interpretLine d s

/-- handleQueue together with the send it reports, recording the value
of ackd just before the send. -/
def handleQueueItems (s : Sess) : Sess × List Item :=
  match handleQueue s with
  | (s1, some c) => (s1, [Item.sent s.ackd c])
  | (s1, none) => (s1, [])

/-- Events processed by the command-flow core: a write request from
the host (writeCommand, lines 117-120, also issued by start-stream and
stop-stream), a serial line with its parse outcome (readSerialLoop
body, lines 140-161, which runs handleQueue after every line), and
attachment or detachment of the serial writer (connect and
disconnect). -/
inductive Ev where
  | write (c : String)
  | line (r : Option LineRecord)
  | setWriter (b : Bool)
  deriving DecidableEq, Repr

/-- One atomic step of the worker on one event. -/
def step (s : Sess) : Ev → Sess × List Item
  | .setWriter b => ({ s with writer := b }, [])
  | .write c => handleQueueItems { s with queue := s.queue ++ [c] }
  | .line none => handleQueueItems s
  | .line (some d) =>
      let p := interpretLine d s
      let q := handleQueueItems p.1
      (q.1, p.2 ++ q.2)

/-- Fold of step over an event list, accumulating the output log. -/
def runTraceAux : List Ev → Sess × List Item → Sess × List Item
  | [], p => p
  | e :: evs, (s, log) =>
      let p := step s e
      runTraceAux evs (p.1, log ++ p.2)

/-- Final session and full output log after a sequence of events. -/
def runTrace (s : Sess) (evs : List Ev) : Sess × List Item :=
  runTraceAux evs (s, [])

/-- Number of commands in flight (sent and not yet acknowledged)
after a log: a ghost counter that a send increments and an incoming
acknowledgment clears. -/
def flightStep (f : Nat) : Item → Nat
  | .sent _ _ => f + 1
  | .acked => 0
  | _ => f

/-- In-flight count over a whole log. -/
def flightOf (log : List Item) : Nat := log.foldl flightStep 0

/-- A send performed while ackd was already false. -/
def isBadSend : Item → Bool
  | .sent b _ => !b
  | _ => false

/-- All sends of a log that happened with ackd already false. -/
def sentBadOf (log : List Item) : List Item := log.filter isBadSend

/-- The commands handed to the transport, in order. -/
def sentOf (log : List Item) : List String :=
  log.filterMap (fun i => match i with | .sent _ c => some c | _ => none)

/-- The commands enqueued by the host, in order. -/
def enqueuedOf (evs : List Ev) : List String :=
  evs.filterMap (fun e => match e with | .write c => some c | _ => none)

/-- Effect of a successful handleConnect (lines 84-106) on the session
variables: the serial writer becomes available (line 90); queue, state
and ackd are not touched anywhere in the function. -/
def handleConnectCore (s : Sess) : Sess := { s with writer := true }

/-! ## Lemmas about the Line Framer -/

theorem splitCRLF_recompose (s : List Char) :
    encodeLines (splitCRLF s).1 ++ (splitCRLF s).2 = s := by
  induction s using splitCRLF.induct with
  | case1 => rfl
  | case2 rest ls b h ih =>
      rw [h] at ih
      rw [splitCRLF.eq_2, h]
      simp only [encodeLines] at ih ⊢
      simp at ih ⊢
      exact ih
  | case3 c rest hg b h ih =>
      rw [h] at ih
      rw [splitCRLF.eq_3 c rest hg, h]
      simp only [encodeLines] at ih ⊢
      simp at ih ⊢
      exact ih
  | case4 c rest hg l ls b h ih =>
      rw [h] at ih
      rw [splitCRLF.eq_3 c rest hg, h]
      simp only [encodeLines] at ih ⊢
      simp [List.append_assoc] at ih ⊢
      exact ih

theorem splitCRLF_fst_nil {s b : List Char} (h : splitCRLF s = ([], b)) : b = s := by
  have := splitCRLF_recompose s
  rw [h] at this
  simpa [encodeLines] using this

theorem splitCRLF_append (s t : List Char) :
    splitCRLF (s ++ t) =
      ((splitCRLF s).1 ++ (splitCRLF ((splitCRLF s).2 ++ t)).1,
        (splitCRLF ((splitCRLF s).2 ++ t)).2) := by
  induction s using splitCRLF.induct with
  | case1 => simp [splitCRLF.eq_1]
  | case2 rest ls b h ih =>
      simp only [List.cons_append] at ih ⊢
      simp only [splitCRLF.eq_2, ih, h]
      simp
  | case3 c rest hg b h ih =>
      have hb : b = rest := splitCRLF_fst_nil h
      subst hb
      simp only [List.cons_append, splitCRLF.eq_3 c b hg, h, List.nil_append]
  | case4 c rest hg l ls b h ih =>
      obtain ⟨d, rest2, rfl⟩ : ∃ d rest2, rest = d :: rest2 := by
        cases rest with
        | nil => rw [splitCRLF.eq_1] at h; exact absurd h (by simp)
        | cons d rest2 => exact ⟨d, rest2, rfl⟩
      have hg2 : ∀ r1 : List Char, c = '\r' → d :: (rest2 ++ t) = '\n' :: r1 → False := by
        intro r1 hc hd
        exact hg rest2 hc (by injection hd with h1 h2; rw [h1])
      simp only [List.cons_append] at ih ⊢
      rw [splitCRLF.eq_3 c _ hg2, ih, splitCRLF.eq_3 c _ hg, h]
      simp [List.append_assoc]

theorem runReader_eq_linesOf (cs : List (List Char)) (b : List Char) :
    runReader cs b = linesOf (b ++ cs.flatten) := by
  induction cs generalizing b with
  | nil => simp [runReader, linesOf]
  | cons c cs ih =>
      show (splitCRLF b).1 ++ runReader cs ((splitCRLF b).2 ++ c) = _
      rw [ih]
      show _ = linesOf (b ++ (c ++ cs.flatten))
      unfold linesOf
      rw [splitCRLF_append b (c ++ cs.flatten)]
      simp [List.append_assoc]

theorem splitCRLF_nocrlf (s : List Char) (h : hasCRLF s = false) :
    splitCRLF s = ([], s) := by
  induction s using splitCRLF.induct with
  | case1 => rfl
  | case2 rest ls b hs ih => simp [hasCRLF] at h
  | case3 c rest hg b hs ih =>
      have hb : b = rest := splitCRLF_fst_nil hs
      rw [splitCRLF.eq_3 c rest hg, hs, hb]
  | case4 c rest hg l ls b hs ih =>
      have hrest : hasCRLF rest = false := by
        cases rest with
        | nil => rfl
        | cons d rest2 =>
            have : hasCRLF (c :: d :: rest2) = false := h
            rw [hasCRLF] at this
            exact (Bool.or_eq_false_iff.mp this).2
      rw [ih hrest] at hs
      exact absurd hs (by simp)

theorem splitCRLF_line (l : List Char) (hl : hasCRLF l = false) (rest : List Char) :
    splitCRLF (l ++ '\r' :: '\n' :: rest) =
      (l :: (splitCRLF rest).1, (splitCRLF rest).2) := by
  induction l with
  | nil =>
      rw [List.nil_append]
      exact rfl
  | cons c l2 ih =>
      have hl2 : hasCRLF l2 = false := by
        cases l2 with
        | nil => rfl
        | cons d l3 =>
            have : hasCRLF (c :: d :: l3) = false := hl
            rw [hasCRLF] at this
            exact (Bool.or_eq_false_iff.mp this).2
      have hg : ∀ r1 : List Char, c = '\r' →
          l2 ++ '\r' :: '\n' :: rest = '\n' :: r1 → False := by
        intro r1 hc happ
        cases l2 with
        | nil => simp at happ
        | cons d l3 =>
            have hd : d = '\n' := by
              rw [List.cons_append] at happ
              exact (List.cons_eq_cons.mp happ).1
            have : hasCRLF (c :: d :: l3) = false := hl
            rw [hasCRLF, hc, hd] at this
            simp at this
      rw [List.cons_append, splitCRLF.eq_3 c _ hg, ih hl2]

theorem splitCRLF_encode (ls : List (List Char)) (tl : List Char)
    (hfree : ∀ l ∈ ls, hasCRLF l = false) (htail : hasCRLF tl = false) :
    splitCRLF (encodeLines ls ++ tl) = (ls, tl) := by
  induction ls with
  | nil => simpa [encodeLines] using splitCRLF_nocrlf tl htail
  | cons l ls ih =>
      have : encodeLines (l :: ls) ++ tl = l ++ '\r' :: '\n' :: (encodeLines ls ++ tl) := by
        simp [encodeLines]
      rw [this, splitCRLF_line l (hfree l (by simp)) _,
        ih (fun x hx => hfree x (by simp [hx]))]

/-! ## Claims about the Line Framer -/

/-- C4.  For every sequence of input chunks whose concatenation is a
delimiter-separated sequence of lines (each line free of the
delimiter, each followed by carriage-return line-feed), the Line
Framer emits exactly those lines, in order, with delimiters stripped,
independently of how the concatenation is split into chunks —
including a chunk boundary inside the two-character delimiter; no line
is lost or duplicated. -/
theorem lineReader_chunk_invariance (chunks lines : List (List Char))
    (hjoin : chunks.flatten = encodeLines lines)
    (hfree : ∀ l ∈ lines, hasCRLF l = false) :
    runReader chunks [] = lines := by
  rw [runReader_eq_linesOf, List.nil_append, hjoin]
  have h := splitCRLF_encode lines [] hfree rfl
  rw [List.append_nil] at h
  simp [linesOf, h]

/-- Witness for C4: the two-chunk stream ab CR, LF c CR LF in which
the first chunk boundary splits the delimiter yields exactly the lines
ab and c. -/
theorem lineReader_chunk_invariance_witness :
    ([['a', 'b', '\r'], ['\n', 'c', '\r', '\n']] : List (List Char)).flatten
        = encodeLines [['a', 'b'], ['c']]
      ∧ runReader [['a', 'b', '\r'], ['\n', 'c', '\r', '\n']] [] = [['a', 'b'], ['c']] :=
  ⟨by decide, lineReader_chunk_invariance _ _ (by decide) (by decide)⟩

/-- C6.  When the stream ends while the framer's buffer is nonempty,
the framer emits the buffered remainder exactly once as a final
unterminated line and nothing further; when the stream ends with an
empty buffer, nothing further is emitted.  Stated over a whole stream:
a concatenation consisting of delimiter-terminated lines followed by a
delimiter-free tail yields exactly those lines plus the tail if it is
nonempty, and exactly those lines if it is empty. -/
theorem lineReader_eos_flush (chunks lines : List (List Char)) (tl : List Char)
    (hjoin : chunks.flatten = encodeLines lines ++ tl)
    (hfree : ∀ l ∈ lines, hasCRLF l = false)
    (htail : hasCRLF tl = false) :
    runReader chunks [] = lines ++ (if tl = [] then [] else [tl]) := by
  rw [runReader_eq_linesOf, List.nil_append, hjoin]
  simp [linesOf, splitCRLF_encode lines tl hfree htail]

/-- Witness for C6: the stream a CR LF b ends with nonempty buffer b,
which is emitted once as the final line; the stream a CR LF ends with
an empty buffer and yields only the line a. -/
theorem lineReader_eos_flush_witness :
    runReader [['a', '\r', '\n', 'b']] [] = [['a'], ['b']]
      ∧ runReader [['a', '\r', '\n']] [] = [['a']] :=
  ⟨by
    have h := lineReader_eos_flush [['a', '\r', '\n', 'b']] [['a']] ['b']
      (by decide) (by decide) (by decide)
    simpa using h,
  by
    have h := lineReader_eos_flush [['a', '\r', '\n']] [['a']] []
      (by decide) (by decide) (by decide)
    simpa using h⟩

/-! ## Lemmas about the Telemetry Decoder -/

theorem decodeLoop_oob (buf : List Nat) (fuel offset : Nat) (h : buf.length ≤ offset) :
    decodeLoop buf fuel offset = [] := by
  cases fuel with
  | zero => rfl
  | succ f => simp [decodeLoop, decodeStep, Nat.not_lt.mpr h]

theorem decodeLoop_fuel (buf : List Nat) :
    ∀ f g offset, buf.length - offset ≤ f → buf.length - offset ≤ g →
      decodeLoop buf f offset = decodeLoop buf g offset := by
  intro f
  induction f with
  | zero =>
      intro g offset h1 h2
      have hle : buf.length ≤ offset := by omega
      rw [decodeLoop_oob buf 0 offset hle, decodeLoop_oob buf g offset hle]
  | succ f ih =>
      intro g offset h1 h2
      by_cases hlt : offset < buf.length
      · obtain ⟨g2, rfl⟩ : ∃ g2, g = g2 + 1 := ⟨g - 1, by omega⟩
        show decodeStep buf offset (decodeLoop buf f) = decodeStep buf offset (decodeLoop buf g2)
        unfold decodeStep
        rw [if_pos hlt, if_pos hlt]
        by_cases hz : readByte buf offset ≠ 0
        · rw [if_pos hz, if_pos hz]
          exact ih g2 (offset + 1) (by omega) (by omega)
        · rw [if_neg hz, if_neg hz]
          by_cases hhd : offset + 4 > buf.length
          · rw [if_pos hhd, if_pos hhd]
          · rw [if_neg hhd, if_neg hhd]
            by_cases hrem : offset + 4 + readByte buf (offset + 3) > buf.length
            · rw [if_pos hrem, if_pos hrem]
            · rw [if_neg hrem, if_neg hrem]
              rw [ih g2 (offset + 4 + readByte buf (offset + 3)) (by omega) (by omega)]
      · have hle : buf.length ≤ offset := by omega
        rw [decodeLoop_oob buf (f + 1) offset hle, decodeLoop_oob buf g offset hle]

theorem decodeLoop_shift (pre buf : List Nat) :
    ∀ f i, decodeLoop (pre ++ buf) f (pre.length + i) = decodeLoop buf f i := by
  intro f
  induction f with
  | zero => intro i; rfl
  | succ f ih =>
      intro i
      have hread : ∀ n, readByte (pre ++ buf) (pre.length + n) = readByte buf n := by
        intro n
        unfold readByte
        rw [List.getD_append_right pre buf 0 (pre.length + n) (Nat.le_add_right _ _)]
        congr 1
        omega
      show decodeStep (pre ++ buf) (pre.length + i) (decodeLoop (pre ++ buf) f)
          = decodeStep buf i (decodeLoop buf f)
      simp only [decodeStep, List.length_append, Nat.add_assoc, hread,
        Nat.add_lt_add_iff_left, ih]

theorem decodeLoop_skipJunk :
    ∀ junk buf fuel, (∀ b ∈ junk, b ≠ 0) →
      decodeLoop (junk ++ buf) (junk.length + fuel) 0 = decodeLoop buf fuel 0 := by
  intro junk
  induction junk with
  | nil => intro buf fuel h; simp
  | cons j junk ih =>
      intro buf fuel h
      have hj : j ≠ 0 := h j (by simp)
      have hlen : (j :: junk).length + fuel = (junk.length + fuel) + 1 := by
        simp [List.length_cons]; omega
      have hstep : decodeLoop (j :: (junk ++ buf)) ((junk.length + fuel) + 1) 0
          = decodeLoop (j :: (junk ++ buf)) (junk.length + fuel) 1 := by
        show decodeStep (j :: (junk ++ buf)) 0 (decodeLoop (j :: (junk ++ buf)) (junk.length + fuel))
            = _
        unfold decodeStep
        rw [if_pos (by simp), if_pos (by simpa [readByte] using hj)]
      have hshift : decodeLoop (j :: (junk ++ buf)) (junk.length + fuel) 1
          = decodeLoop (junk ++ buf) (junk.length + fuel) 0 := by
        have h1 := decodeLoop_shift [j] (junk ++ buf) (junk.length + fuel) 0
        simpa using h1
      rw [List.cons_append, hlen, hstep, hshift,
        ih buf fuel (fun b hb => h b (by simp [hb]))]

/-- C10.  For every input buffer, of any length and byte contents, the
scan loop of the Telemetry Decoder terminates: every iteration either
strictly increases the offset (by 1 on a nonzero byte, by 4 plus the
declared width on a decoded record) or exits, so one fuel unit per
buffer byte always suffices and any larger fuel gives the same
result. -/
theorem decoder_scan_terminates (buf : List Nat) (fuel : Nat)
    (h : buf.length ≤ fuel) :
    decodeLoop buf fuel 0 = decodeFrames buf :=
  decodeLoop_fuel buf fuel buf.length 0 (by omega) (by omega)

/-- Witness for C10: a 7-byte buffer mixing a junk byte and one record
is fully decoded with any fuel of at least its length. -/
theorem decoder_scan_terminates_witness :
    ([1, 0, 0, 3, 2, 9, 9] : List Nat).length ≤ 64
      ∧ decodeLoop [1, 0, 0, 3, 2, 9, 9] 64 0 = decodeFrames [1, 0, 0, 3, 2, 9, 9] :=
  ⟨by decide, decoder_scan_terminates [1, 0, 0, 3, 2, 9, 9] 64 (by decide)⟩

/-- C8.  For every buffer in which the sentinel byte of the first
record is corrupted (a nonempty prefix of nonzero bytes) but a later
well-formed record is present, the decoder advances one byte at a time
past the non-sentinel bytes and still decodes and emits the later
record(s). -/
theorem decoder_resync (junk buf : List Nat) (a : Nat) (v : Int)
    (upd : List (Nat × Int)) (hne : junk ≠ [])
    (hnz : ∀ b ∈ junk, b ≠ 0)
    (hrec : decodeFrames buf = (a, v) :: upd) :
    decodeFrames (junk ++ buf) = (a, v) :: upd := by
  rw [← hrec]
  unfold decodeFrames
  rw [List.length_append]
  exact decodeLoop_skipJunk junk buf buf.length hnz

/-- Witness for C8: two nonzero junk bytes before a well-formed
width-2 record at address 5 with value 0x1234 do not prevent its
decoding. -/
theorem decoder_resync_witness :
    decodeFrames ([7, 3] ++ [0, 0, 5, 2, 18, 52]) = [(5, 4660)] :=
  decoder_resync [7, 3] [0, 0, 5, 2, 18, 52] 5 4660 [] (by decide) (by decide) (by decide)

/-! ## Value assembly lemmas -/

theorem beValFrom_cons (a b : Nat) (r : List Nat) :
    beValFrom a (b :: r) = beValFrom (a * 256 + b) r := rfl

theorem beValFrom_append_single (a : Nat) (l : List Nat) (b : Nat) :
    beValFrom a (l ++ [b]) = beValFrom a l * 256 + b := by
  unfold beValFrom
  rw [List.foldl_append]
  rfl

theorem beValFrom_ge (a : Nat) (l : List Nat) : a ≤ beValFrom a l := by
  induction l generalizing a with
  | nil => exact Nat.le_refl a
  | cons b r ih =>
      rw [beValFrom_cons]
      calc a ≤ a * 256 + b := by omega
        _ ≤ beValFrom (a * 256 + b) r := ih _

theorem encBE_length (N : Nat) : ∀ V, (encBE N V).length = N := by
  induction N with
  | zero => intro V; rfl
  | succ n ih => intro V; simp [encBE, ih]

theorem beValFrom_encBE (N : Nat) : ∀ V a, V < 256 ^ N →
    beValFrom a (encBE N V) = a * 256 ^ N + V := by
  induction N with
  | zero =>
      intro V a h
      have : V = 0 := by omega
      simp [encBE, beValFrom, this]
  | succ n ih =>
      intro V a h
      have hdiv : V / 256 < 256 ^ n := by
        rw [Nat.div_lt_iff_lt_mul (by omega)]
        calc V < 256 ^ (n + 1) := h
          _ = 256 ^ n * 256 := by rw [pow_succ]
      rw [encBE, beValFrom_append_single, ih (V / 256) a hdiv]
      have hdm : V / 256 * 256 + V % 256 = V := by omega
      calc (a * 256 ^ n + V / 256) * 256 + V % 256
          = a * (256 ^ n * 256) + (V / 256 * 256 + V % 256) := by ring
        _ = a * 256 ^ (n + 1) + V := by rw [hdm, pow_succ]

theorem beVal_encBE (N V : Nat) (h : V < 256 ^ N) : beVal (encBE N V) = V := by
  unfold beVal
  rw [beValFrom_encBE N V 0 h]
  simp

theorem foldl_jsShlOr_eq (vb : List Nat) : ∀ a : Nat, beValFrom a vb < 2 ^ 31 →
    vb.foldl jsShlOr (a : Int) = ((beValFrom a vb : Nat) : Int) := by
  induction vb with
  | nil => intro a h; rfl
  | cons b r ih =>
      intro a h
      rw [beValFrom_cons] at h ⊢
      have hle : a * 256 + b ≤ beValFrom (a * 256 + b) r := beValFrom_ge _ _
      have hb : a * 256 + b < 2 ^ 31 := lt_of_le_of_lt hle h
      have hjs : jsShlOr (a : Int) b = ((a * 256 + b : Nat) : Int) := by
        unfold jsShlOr toUInt32n toInt32
        have ha1 : (((a : Nat) : Int) % 4294967296) = ((a : Nat) : Int) := by
          rw [Int.emod_eq_of_lt (by exact_mod_cast Nat.zero_le a)
            (by exact_mod_cast (by omega : a < 4294967296))]
        rw [ha1, Int.toNat_natCast]
        rw [Nat.mod_eq_of_lt (by omega : a * 256 < 4294967296)]
        rw [Nat.mod_eq_of_lt (by omega : a * 256 + b < 4294967296)]
        rw [if_pos (by omega : a * 256 + b < 2147483648)]
      rw [List.foldl_cons, hjs, ih (a * 256 + b) h]

theorem map_getD_range {α : Type} (l : List α) (d : α) :
    (List.range l.length).map (fun i => l.getD i d) = l := by
  induction l with
  | nil => rfl
  | cons a l ih =>
      rw [List.length_cons, List.range_succ_eq_map]
      simp only [List.map_cons, List.map_map, List.getD_cons_zero]
      have hmap : (List.range l.length).map ((fun i => (a :: l).getD i d) ∘ Nat.succ)
          = (List.range l.length).map (fun i => l.getD i d) := by
        apply List.map_congr_left
        intro x hx
        simp [Function.comp]
      rw [hmap, ih]

/-- Decoding a buffer holding exactly one record: sentinel byte 0,
reserved byte, address byte, width byte N, then the N value bytes.
The resulting raw value is the source's: 32-bit signed shift-or
accumulation for N of at most 4, exact accumulation followed by float
conversion for larger N. -/
theorem decodeFrames_record (A N : Nat) (vb : List Nat) (hlen : vb.length = N) :
    decodeFrames (0 :: 0 :: A :: N :: vb)
      = [(A, if N > 4 then Int.ofNat (roundFloat64 (beVal vb))
            else vb.foldl jsShlOr 0)] := by
  have hbl : (0 :: 0 :: A :: N :: vb).length = N + 4 := by
    simp [hlen]
  unfold decodeFrames
  rw [hbl]
  show decodeStep (0 :: 0 :: A :: N :: vb) 0 (decodeLoop (0 :: 0 :: A :: N :: vb) (N + 3)) = _
  unfold decodeStep
  rw [if_pos (by simp : (0 : Nat) < (0 :: 0 :: A :: N :: vb).length)]
  rw [if_neg (by simp [readByte] : ¬ readByte (0 :: 0 :: A :: N :: vb) 0 ≠ 0)]
  rw [if_neg (show ¬ 0 + 4 > (0 :: 0 :: A :: N :: vb).length by rw [hbl]; omega)]
  rw [show readByte (0 :: 0 :: A :: N :: vb) (0 + 2) = A from rfl]
  rw [show readByte (0 :: 0 :: A :: N :: vb) (0 + 3) = N from rfl]
  rw [if_neg (show ¬ 0 + 4 + N > (0 :: 0 :: A :: N :: vb).length by rw [hbl]; omega)]
  have hv : (List.range N).map (fun i => readByte (0 :: 0 :: A :: N :: vb) (0 + 4 + i))
      = vb := by
    have h1 : ∀ i, readByte (0 :: 0 :: A :: N :: vb) (0 + 4 + i) = vb.getD i 0 := by
      intro i
      show ([0, 0, A, N] ++ vb).getD (0 + 4 + i) 0 = vb.getD i 0
      rw [List.getD_append_right _ _ _ _
        (by simp : ([0, 0, A, N] : List Nat).length ≤ 0 + 4 + i)]
      congr 1
      simp
    rw [List.map_congr_left (fun i _ => h1 i), ← hlen]
    exact map_getD_range vb 0
  rw [hv]
  rw [decodeLoop_oob _ _ _ (by rw [hbl]; omega)]

/-- C2, counterexample.  The claim asserts that decoding a single
record with address A, width N and value V below 2 to the 8 N always
yields the update with raw value V.  At width 4 and value 2 to the 31
the source accumulates with JavaScript 32-bit signed shifts and
produces the negative value -2147483648 instead. -/
theorem decoder_roundtrip_cex :
    2147483648 < 256 ^ 4
      ∧ encBE 4 2147483648 = [128, 0, 0, 0]
      ∧ decodeFrames (0 :: 0 :: 5 :: 4 :: encBE 4 2147483648) ≠ [(5, (2147483648 : Int))]
      ∧ decodeFrames (0 :: 0 :: 5 :: 4 :: encBE 4 2147483648) = [(5, -2147483648)] := by
  refine ⟨by decide, by decide, by decide, by decide⟩

/-- C2, amended.  Decoding a buffer containing exactly the encoding of
one record (sentinel 0, reserved byte, address A, width N, the N
big-endian bytes of V) yields exactly the update with address A and
raw value V, for every V the source's numeric paths represent exactly:
any V below 2 to the 8 N for widths up to 3, V below 2 to the 31 for
width 4 (the 32-bit signed accumulator), and V below 2 to the 53 for
widths 5 to 8 (the float conversion after exact accumulation). -/
theorem decoder_roundtrip_exact (A N V : Nat) (hA : A < 256) (hN1 : 1 ≤ N)
    (hN8 : N ≤ 8) (hV : V < 256 ^ N)
    (hexact : N ≤ 3 ∨ (N = 4 ∧ V < 2 ^ 31) ∨ (5 ≤ N ∧ V < 2 ^ 53)) :
    decodeFrames (0 :: 0 :: A :: N :: encBE N V) = [(A, (V : Int))] := by
  rw [decodeFrames_record A N (encBE N V) (encBE_length N V)]
  have hbe : beVal (encBE N V) = V := beVal_encBE N V hV
  rcases hexact with h3 | ⟨h4, hv31⟩ | ⟨h5, hv53⟩
  · have hsmall : V < 2 ^ 31 := by
      calc V < 256 ^ N := hV
        _ ≤ 256 ^ 3 := Nat.pow_le_pow_right (by omega) h3
        _ < 2 ^ 31 := by norm_num
    rw [if_neg (by omega : ¬ N > 4)]
    have hsmall2 : beValFrom 0 (encBE N V) < 2 ^ 31 := by
      have hx : beValFrom 0 (encBE N V) = V := by simpa [beVal] using hbe
      omega
    have hfold := foldl_jsShlOr_eq (encBE N V) 0 hsmall2
    simp only [Nat.cast_zero] at hfold
    rw [hfold]
    simp [beVal] at hbe ⊢
    rw [hbe]
  · subst h4
    rw [if_neg (by omega : ¬ (4 : Nat) > 4)]
    have hsmall : beValFrom 0 (encBE 4 V) < 2 ^ 31 := by
      have : beValFrom 0 (encBE 4 V) = V := by simpa [beVal] using hbe
      omega
    have hfold := foldl_jsShlOr_eq (encBE 4 V) 0 hsmall
    simp only [Nat.cast_zero] at hfold
    rw [hfold]
    simp [beVal] at hbe
    rw [hbe]
  · rw [if_pos (by omega : N > 4), hbe]
    unfold roundFloat64
    rw [if_pos hv53]
    rfl

/-- Witness for C2 amended: the spec's own example, address 5, width
2, value 0x1234, decodes back exactly. -/
theorem decoder_roundtrip_exact_witness :
    decodeFrames (0 :: 0 :: 5 :: 2 :: encBE 2 4660) = [(5, (4660 : Int))] :=
  decoder_roundtrip_exact 5 2 4660 (by decide) (by decide) (by decide) (by decide)
    (Or.inl (by decide))

/-- C3.  The claim states that the decoded raw value equals the
unsigned big-endian accumulation of the value bytes, without precision
loss, for all values in the host's safe-integer range.  The width-4
record with bytes FF FF FF FF encodes 4294967295, well inside the
safe-integer range, yet the source's 32-bit signed shift-or
accumulation wraps and produces -1. -/
theorem decoder_width4_wrap_eval :
    decodeFrames [0, 0, 5, 4, 255, 255, 255, 255] = [(5, -1)]
      ∧ beVal [255, 255, 255, 255] = 4294967295
      ∧ (4294967295 : Nat) < 2 ^ 53
      ∧ ((4294967295 : Nat) : Int) ≠ -1 := by
  refine ⟨by decide, by decide, by decide, by decide⟩

/-! ## Lemmas about the command queue and session trace -/

theorem hqi_spec (s : Sess) :
    handleQueueItems s = (s, [])
      ∨ ∃ c q2, s.queue = c :: q2 ∧ s.ackd = true
          ∧ handleQueueItems s
            = ({ s with queue := q2, ackd := false }, [Item.sent true c]) := by
  unfold handleQueueItems handleQueue
  by_cases hw : s.writer
  · by_cases hc : (s.state = "idle" || s.state = "collecting") && s.ackd
    · have hackd : s.ackd = true := by
        simp only [Bool.and_eq_true] at hc
        exact hc.2
      have hst : s.state = "idle" ∨ s.state = "collecting" := by
        simp only [Bool.and_eq_true, Bool.or_eq_true, decide_eq_true_eq] at hc
        exact hc.1
      cases hq : s.queue with
      | nil => left; rcases hst with h | h <;> simp [hw, hq, hackd, h]
      | cons c rest =>
          right
          refine ⟨c, rest, rfl, hackd, ?_⟩
          rcases hst with h | h <;> simp [hw, hq, hackd, h]
    · left; simp [hw, hc]
  · left
    simp only [Bool.not_eq_true] at hw
    simp [hw]

theorem flightOf_append (l1 l2 : List Item) :
    flightOf (l1 ++ l2) = List.foldl flightStep (flightOf l1) l2 := by
  unfold flightOf
  rw [List.foldl_append]

theorem sentBadOf_append (l1 l2 : List Item) :
    sentBadOf (l1 ++ l2) = sentBadOf l1 ++ sentBadOf l2 := by
  unfold sentBadOf
  rw [List.filter_append]

theorem sentOf_append (l1 l2 : List Item) :
    sentOf (l1 ++ l2) = sentOf l1 ++ sentOf l2 := by
  unfold sentOf
  rw [List.filterMap_append]

theorem interpretLine_queue (d : LineRecord) (s : Sess) :
    (interpretLine d s).1.queue = s.queue := by
  rcases d with ⟨ack, evm, reg⟩
  cases ack <;> rcases evm with _ | st <;> rcases reg with _ | ⟨a, v⟩ <;>
    simp [interpretLine]

theorem interpretLine_writer (d : LineRecord) (s : Sess) :
    (interpretLine d s).1.writer = s.writer := by
  rcases d with ⟨ack, evm, reg⟩
  cases ack <;> rcases evm with _ | st <;> rcases reg with _ | ⟨a, v⟩ <;>
    simp [interpretLine]

theorem interpretLine_ackd (d : LineRecord) (s : Sess) :
    (interpretLine d s).1.ackd = (d.acknowledge || s.ackd) := by
  rcases d with ⟨ack, evm, reg⟩
  cases ack <;> rcases evm with _ | st <;> rcases reg with _ | ⟨a, v⟩ <;>
    simp [interpretLine]

theorem interpretLine_flight (d : LineRecord) (s : Sess) (log : List Item) :
    flightOf (log ++ (interpretLine d s).2)
      = if d.acknowledge then 0 else flightOf log := by
  rcases d with ⟨ack, evm, reg⟩
  cases ack <;> rcases evm with _ | st <;> rcases reg with _ | ⟨a, v⟩ <;>
    simp [interpretLine, flightOf_append, flightStep, List.foldl_append]

theorem interpretLine_sentBad (d : LineRecord) (s : Sess) :
    sentBadOf (interpretLine d s).2 = [] := by
  rcases d with ⟨ack, evm, reg⟩
  cases ack <;> rcases evm with _ | st <;> rcases reg with _ | ⟨a, v⟩ <;>
    simp [interpretLine, sentBadOf, isBadSend, List.filter_append]

theorem interpretLine_sent (d : LineRecord) (s : Sess) :
    sentOf (interpretLine d s).2 = [] := by
  rcases d with ⟨ack, evm, reg⟩
  cases ack <;> rcases evm with _ | st <;> rcases reg with _ | ⟨a, v⟩ <;>
    simp [interpretLine, sentOf, List.filterMap_append]

/-- The single-flight invariant: the log contains no send performed
with ackd already false, at most one command is in flight, and
whenever ackd is set nothing is in flight. -/
def InvC1 (s : Sess) (log : List Item) : Prop :=
  sentBadOf log = [] ∧ flightOf log ≤ 1 ∧ (s.ackd = true → flightOf log = 0)

/-- Running handleQueue preserves the single-flight invariant: the
send it may perform happens with ackd true and clears ackd. -/
theorem hqi_inv (s1 : Sess) (log : List Item)
    (hbad : sentBadOf log = []) (hle : flightOf log ≤ 1)
    (hack : s1.ackd = true → flightOf log = 0) :
    InvC1 (handleQueueItems s1).1 (log ++ (handleQueueItems s1).2) := by
  rcases hqi_spec s1 with hq | ⟨c, q2, hqe, hackd, hq⟩
  · rw [hq]
    refine ⟨?_, ?_, ?_⟩
    · simpa using hbad
    · simpa using hle
    · intro ha
      simpa using hack ha
  · have hf0 : flightOf log = 0 := hack hackd
    rw [hq]
    refine ⟨?_, ?_, ?_⟩
    · rw [sentBadOf_append, hbad]
      rfl
    · rw [flightOf_append, hf0]
      simp [flightStep]
    · intro ha
      simp at ha

theorem step_invC1 (s : Sess) (log : List Item) (e : Ev) (h : InvC1 s log) :
    InvC1 (step s e).1 (log ++ (step s e).2) := by
  obtain ⟨hbad, hle, hack⟩ := h
  cases e with
  | setWriter b =>
      show InvC1 { s with writer := b } (log ++ [])
      rw [List.append_nil]
      exact ⟨hbad, hle, hack⟩
  | write c =>
      show InvC1 (handleQueueItems { s with queue := s.queue ++ [c] }).1
        (log ++ (handleQueueItems { s with queue := s.queue ++ [c] }).2)
      exact hqi_inv _ log hbad hle (fun ha => hack ha)
  | line r =>
      cases r with
      | none => exact hqi_inv s log hbad hle hack
      | some d =>
          have hfl : flightOf (log ++ (interpretLine d s).2)
              = if d.acknowledge then 0 else flightOf log := interpretLine_flight d s log
          have hfl1 : flightOf (log ++ (interpretLine d s).2) ≤ 1 := by
            rw [hfl]; split <;> omega
          have hackfl : (interpretLine d s).1.ackd = true →
              flightOf (log ++ (interpretLine d s).2) = 0 := by
            intro ha
            rw [interpretLine_ackd] at ha
            rw [hfl]
            cases hda : d.acknowledge with
            | true => simp
            | false =>
                rw [hda] at ha
                simp at ha ⊢
                exact hack ha
          have hbad1 : sentBadOf (log ++ (interpretLine d s).2) = [] := by
            rw [sentBadOf_append, interpretLine_sentBad, hbad]
            rfl
          have hmain := hqi_inv (interpretLine d s).1 (log ++ (interpretLine d s).2)
            hbad1 hfl1 hackfl
          show InvC1 (handleQueueItems (interpretLine d s).1).1
            (log ++ ((interpretLine d s).2 ++ (handleQueueItems (interpretLine d s).1).2))
          rwa [← List.append_assoc]

theorem runTraceAux_invC1 :
    ∀ evs (s : Sess) (log : List Item), InvC1 s log →
      InvC1 (runTraceAux evs (s, log)).1 (runTraceAux evs (s, log)).2 := by
  intro evs
  induction evs with
  | nil => intro s log h; exact h
  | cons e evs ih =>
      intro s log h
      exact ih (step s e).1 (log ++ (step s e).2) (step_invC1 s log e h)

/-- C1.  For every sequence of enqueue, acknowledgment and
state-change events processed by the command queue from worker start,
a command is sent only when ackd is true (the log contains no send
tagged with ackd false), and at most one command is in flight at any
time (after every prefix of the events the in-flight count is at most
one).  That the flag is cleared at the send is visible in handleQueue
itself and is what keeps the count at one. -/
theorem queue_single_flight (events : List Ev) (n : Nat) :
    sentBadOf (runTrace sess0 events).2 = []
      ∧ flightOf (runTrace sess0 (events.take n)).2 ≤ 1 := by
  have h0 : InvC1 sess0 [] := ⟨rfl, by decide, fun _ => rfl⟩
  have h1 := runTraceAux_invC1 events sess0 [] h0
  have h2 := runTraceAux_invC1 (events.take n) sess0 [] h0
  exact ⟨h1.1, h2.2.1⟩

/-- One step preserves the bookkeeping identity: everything ever
enqueued is the sent commands followed by the pending queue. -/
theorem step_queue (s : Sess) (log : List Item) (e : Ev) :
    sentOf (log ++ (step s e).2) ++ (step s e).1.queue
      = (sentOf log ++ s.queue) ++ enqueuedOf [e] := by
  cases e with
  | setWriter b =>
      show sentOf (log ++ []) ++ s.queue = _
      simp [enqueuedOf, sentOf]
  | write c =>
      show sentOf (log ++ (handleQueueItems { s with queue := s.queue ++ [c] }).2)
          ++ (handleQueueItems { s with queue := s.queue ++ [c] }).1.queue = _
      rcases hqi_spec { s with queue := s.queue ++ [c] } with hq | ⟨c2, q2, hqe, hackd, hq⟩
      · rw [hq]
        simp [enqueuedOf, sentOf_append, sentOf]
      · rw [hq]
        have hqe2 : s.queue ++ [c] = c2 :: q2 := hqe
        simp only [sentOf_append]
        have hs : sentOf [Item.sent true c2] = [c2] := rfl
        rw [hs]
        simp [enqueuedOf, ← hqe2, List.append_assoc]
  | line r =>
      have key : ∀ s1 : Sess, s1.queue = s.queue →
          sentOf (handleQueueItems s1).2 ++ (handleQueueItems s1).1.queue = s.queue := by
        intro s1 hq1
        rcases hqi_spec s1 with hq | ⟨c2, q2, hqe, hackd, hq⟩
        · rw [hq]
          simp [sentOf, hq1]
        · rw [hq]
          have hs : sentOf [Item.sent true c2] = [c2] := rfl
          rw [hs]
          rw [← hq1, hqe]
          rfl
      cases r with
      | none =>
          show sentOf (log ++ (handleQueueItems s).2)
              ++ (handleQueueItems s).1.queue = _
          rw [sentOf_append, List.append_assoc, key s rfl]
          simp [enqueuedOf]
      | some d =>
          show sentOf (log ++ ((interpretLine d s).2
                ++ (handleQueueItems (interpretLine d s).1).2))
              ++ (handleQueueItems (interpretLine d s).1).1.queue = _
          rw [← List.append_assoc, sentOf_append, sentOf_append,
            interpretLine_sent, List.append_nil, List.append_assoc,
            key (interpretLine d s).1 (interpretLine_queue d s)]
          simp [enqueuedOf]

theorem runTraceAux_queue :
    ∀ evs (s : Sess) (log : List Item),
      sentOf (runTraceAux evs (s, log)).2 ++ (runTraceAux evs (s, log)).1.queue
        = (sentOf log ++ s.queue) ++ enqueuedOf evs := by
  intro evs
  induction evs with
  | nil =>
      intro s log
      simp [runTraceAux, enqueuedOf]
  | cons e evs ih =>
      intro s log
      show sentOf (runTraceAux evs ((step s e).1, log ++ (step s e).2)).2
            ++ (runTraceAux evs ((step s e).1, log ++ (step s e).2)).1.queue = _
      rw [ih (step s e).1 (log ++ (step s e).2), step_queue s log e]
      unfold enqueuedOf
      rw [List.filterMap_cons]
      cases e <;> simp

/-- C7.  For every sequence of events, the commands handed to the
transport are exactly an initial segment of the commands enqueued, in
enqueue order: strict FIFO release, no command sent twice. -/
theorem queue_fifo (events : List Ev) :
    sentOf (runTrace sess0 events).2
      = (enqueuedOf events).take (sentOf (runTrace sess0 events).2).length := by
  have h := runTraceAux_queue events sess0 []
  have h2 : sentOf (runTrace sess0 events).2 ++ (runTrace sess0 events).1.queue
      = enqueuedOf events := by
    simpa [runTrace, sentOf] using h
  rw [← h2, List.take_left]

/-- C9.  The Command Line Decoder never raises: it is a total
function, and on any line the parser rejects it emits no event at all
and leaves the session (ackd, state, queue, writer) unchanged. -/
theorem lineDecoder_malformed_noop (parse : String → Option LineRecord)
    (s : Sess) (line : String) (h : parse line = none) :
    decodeLine parse s line = (s, []) := by
  unfold decodeLine
  rw [h]

/-- Witness for C9: a parser that rejects the line leaves the initial
session untouched and emits nothing. -/
theorem lineDecoder_malformed_noop_witness :
    (fun _ : String => (none : Option LineRecord)) "not json" = none
      ∧ decodeLine (fun _ : String => (none : Option LineRecord)) sess0 "not json"
        = (sess0, []) :=
  ⟨rfl, lineDecoder_malformed_noop (fun _ => none) sess0 "not json" rfl⟩

/-- C5, counterexample.  The claim says processing connect leaves the
session with ackd true, queue empty and state at the default, from
every starting state.  handleConnect never writes those variables: in
the starting state with a pending command, state collecting and ackd
false, they all keep their old values. -/
theorem connect_no_reset_cex :
    ¬ ((handleConnectCore
          { queue := ["stop 1"], state := "collecting", ackd := false, writer := false }).ackd
            = true
        ∧ (handleConnectCore
          { queue := ["stop 1"], state := "collecting", ackd := false, writer := false }).queue
            = []
        ∧ (handleConnectCore
          { queue := ["stop 1"], state := "collecting", ackd := false, writer := false }).state
            = "idle") := by
  simp [handleConnectCore]

/-- C5, amended.  Processing the connect event only makes the serial
writer available; it leaves ackd, the queue and the session state
unchanged.  The default configuration — ackd true, queue empty, state
idle — holds at worker initialization (and hence before the first
connect), not after an arbitrary connect. -/
theorem connect_preserves_session :
    (∀ s : Sess, (handleConnectCore s).ackd = s.ackd
        ∧ (handleConnectCore s).queue = s.queue
        ∧ (handleConnectCore s).state = s.state
        ∧ (handleConnectCore s).writer = true)
      ∧ sess0.ackd = true ∧ sess0.queue = [] ∧ sess0.state = "idle" :=
  ⟨fun _ => ⟨rfl, rfl, rfl, rfl⟩, rfl, rfl, rfl⟩

end INA229
